import Mathlib

/-!
Verification development for the ComfyUI-ModelFinder-V2 repository.

The Python modules under ModelFinderV2_5 are shallowly embedded below:
  * analysis_model.remove_chinese_prefix and friends (name normalization),
  * irregular_names_model.IrregularNamesModel (alias map store),
  * analysis_model.create_csv_file (ledger creation and row merging),
  * analysis_model.find_missing_models (existence probing part),
  * analysis_model.search_model_links (resolution run over a ledger).

Strings are modelled as Lean strings (lists of unicode scalar values).
Python str.strip and the regex class backslash-s are modelled over their
ASCII whitespace subset, which is the only part the program relies on.
The filesystem is modelled as the list of existing paths, and the
browser-backed search collaborator as an oracle giving one outcome per
ledger row.
-/

/-- ASCII approximation of the whitespace class used by Python str.strip
and by the regex class backslash-s. -/
def isPySpace (c : Char) : Bool :=
  c = ' ' || c = '\t' || c = '\n' || c = '\r' || c = '\x0b' || c = '\x0c'

/-- Characters matched by the range 4e00-9fa5 in the prefix-stripping
regex of analysis_model.remove_chinese_prefix. -/
def isCJKStripChar (c : Char) : Bool :=
  0x4e00 ≤ c.toNat && c.toNat ≤ 0x9fa5

/-- Characters matched by the wider range 4e00-9fff of the search pattern
compiled in AnalysisModel.__init__ (used by _contains_chinese). -/
def isCJKSearchChar (c : Char) : Bool :=
  0x4e00 ≤ c.toNat && c.toNat ≤ 0x9fff

/-- Characters of the separator class [-_|\s] stripped after a CJK run. -/
def isSepChar (c : Char) : Bool :=
  c = '-' || c = '_' || c = '|' || isPySpace c

/-- Python str.strip on a list of characters. -/
def pyStripL (l : List Char) : List Char :=
  ((l.dropWhile isPySpace).reverse.dropWhile isPySpace).reverse

/-- Python str.strip on strings. -/
def pyStrip (s : String) : String :=
  (pyStripL s.toList).asString

/-- True when the string begins with a character of the strip range,
mirroring re.search of an anchored CJK class in remove_chinese_prefix. -/
def beginsWithCJK (s : String) : Bool :=
  match s.toList with
  | [] => false
  | c :: _ => isCJKStripChar c

/-- AnalysisModel.remove_chinese_prefix: when the filename starts with a
CJK character, drop the maximal leading CJK run, strip, drop the leading
separator run, and strip again; otherwise return the input unchanged. -/
def removeChinesePrefixFn (s : String) : String :=
  if beginsWithCJK s then
    (pyStripL ((pyStripL (s.toList.dropWhile isCJKStripChar)).dropWhile isSepChar)).asString
  else s

/-- AnalysisModel._contains_chinese: regex search over the 4e00-9fff range. -/
def containsChinese (s : String) : Bool :=
  s.toList.any isCJKSearchChar

/-- Python substring containment (the in operator on str). -/
def hasSubstr (hay needle : String) : Bool :=
  decide (needle.toList <:+: hay.toList)

/-- Python str.startswith. -/
def strBeginsWith (s p : String) : Bool :=
  p.toList.isPrefixOf s.toList

/-- Python str.endswith. -/
def strEndsWith (s p : String) : Bool :=
  p.toList.isSuffixOf s.toList

/-- Replace the first element at a given position, leaving the list
unchanged when the position is out of range. -/
def modifyAt {α : Type} (f : α → α) : Nat → List α → List α
  | _, [] => []
  | 0, a :: t => f a :: t
  | n + 1, a :: t => a :: modifyAt f n t

/-- One record of irregular_names_map.json: a generated unique id, the
irregular original name, the corrected name, and free-text notes. -/
structure Mapping where
  id : String
  original_name : String
  corrected_name : String
  notes : String
deriving DecidableEq

/-- Collapse every maximal run of whitespace into one space character,
mirroring re.sub of one-or-more whitespace with a single space. The Bool
argument remembers whether the previous character was whitespace. -/
def collapseWSAux : Bool → List Char → List Char
  | _, [] => []
  | prevSpace, c :: t =>
    if isPySpace c then
      if prevSpace then collapseWSAux true t else ' ' :: collapseWSAux true t
    else c :: collapseWSAux false t

/-- IrregularNamesModel._normalize_string: strip the ends, then collapse
internal whitespace runs to single spaces. -/
def normalizeString (s : String) : String :=
  (collapseWSAux false (pyStripL s.toList)).asString

/-- ASCII lower-casing of a string, modelling Python str.lower on the
names this program compares. -/
def strLower (s : String) : String :=
  (s.toList.map Char.toLower).asString

/-- IrregularNamesModel.get_corrected_name: an empty name is returned at
once; otherwise three passes over the mapping list are tried in order
(exact equality, equality of normalized forms, case-insensitive
equality), the first matching entry in list order winning; when no pass
matches, the input is returned unchanged. -/
def getCorrectedName (maps : List Mapping) (name : String) : String :=
  if name = "" then name
  else
    match maps.find? (fun m => decide (m.original_name = name)) with
    | some m => m.corrected_name
    | none =>
      match maps.find? (fun m => decide (normalizeString m.original_name = normalizeString name)) with
      | some m => m.corrected_name
      | none =>
        match maps.find? (fun m => decide (strLower m.original_name = strLower name)) with
        | some m => m.corrected_name
        | none => name

/-- Modelled from the spec wording of the AliasMap lookup, for comparison
with getCorrectedName: matched by exact, then whitespace-normalized, then
case-insensitive equality, first match winning in that priority order,
falling back to the input name when no entry matches. -/
def specAliasLookup (maps : List Mapping) (name : String) : String :=
  match (maps.find? (fun m => decide (m.original_name = name))
      <|> maps.find? (fun m => decide (normalizeString m.original_name = normalizeString name))
      <|> maps.find? (fun m => decide (strLower m.original_name = strLower name))) with
  | some m => m.corrected_name
  | none => name

/-- IrregularNamesModel.add_mapping. The generated uuid is passed in as
newId, and the final _save_mappings write is modelled as succeeding. -/
def addMapping (maps : List Mapping) (newId origName corrName notes : String) :
    Bool × List Mapping :=
  if origName = "" || corrName = "" then (false, maps)
  else if maps.any (fun m => decide (m.original_name = origName)) then (false, maps)
  else (true, maps ++ [{ id := newId, original_name := origName,
                         corrected_name := corrName, notes := notes }])

/-- Position of the first entry with the given id, counting from k
(the enumerate loop of update_mapping). -/
def findIdxById : Nat → String → List Mapping → Option Nat
  | _, _, [] => none
  | k, mid, m :: t => if m.id = mid then some k else findIdxById (k + 1) mid t

/-- The conflict scan of update_mapping: is there an entry, at a position
other than i, whose original name equals the new original name?  The
first argument counts positions from the enumerate loop. -/
def existsOtherOriginal : Nat → Nat → String → List Mapping → Bool
  | _, _, _, [] => false
  | j, i, o, m :: t =>
    (decide (j ≠ i) && decide (m.original_name = o)) || existsOtherOriginal (j + 1) i o t

/-- IrregularNamesModel.update_mapping: reject empty names, locate the
entry by id, reject when the new original name collides with any other
entry, otherwise overwrite the three data fields in place. -/
def updateMapping (maps : List Mapping) (mid newOrig newCorr newNotes : String) :
    Bool × List Mapping :=
  if newOrig = "" || newCorr = "" then (false, maps)
  else
    match findIdxById 0 mid maps with
    | none => (false, maps)
    | some i =>
      if existsOtherOriginal 0 i newOrig maps then (false, maps)
      else (true, modifyAt (fun m => { m with original_name := newOrig,
                                              corrected_name := newCorr,
                                              notes := newNotes }) i maps)

/-- IrregularNamesModel.delete_mapping: keep the entries whose id
differs; report success exactly when the list shrank. -/
def deleteMapping (maps : List Mapping) (mid : String) : Bool × List Mapping :=
  if (maps.filter (fun m => decide (m.id ≠ mid))).length < maps.length then
    (true, maps.filter (fun m => decide (m.id ≠ mid)))
  else (false, maps)

/-- Python str.replace scanning left to right without overlap; an empty
needle is treated as a no-op (the program only replaces fixed non-empty
path segments). The fuel argument, instantiated with the length of the
scanned list, bounds the scan structurally. -/
def replaceAllFuel (needle repl : List Char) : Nat → List Char → List Char
  | _, [] => []
  | 0, l => l
  | fuel + 1, c :: rest =>
    if needle ≠ [] ∧ needle.isPrefixOf (c :: rest) then
      repl ++ replaceAllFuel needle repl fuel ((c :: rest).drop needle.length)
    else
      c :: replaceAllFuel needle repl fuel rest

/-- Python str.replace on character lists. -/
def replaceAll (needle repl l : List Char) : List Char :=
  replaceAllFuel needle repl l.length l

/-- Python str.replace on strings. -/
def strReplace (s needle repl : String) : String :=
  (replaceAll needle.toList repl.toList s.toList).asString

/-- Remainder of the list after the first occurrence of the needle. -/
def afterSubstr (needle : List Char) : List Char → Option (List Char)
  | [] => none
  | c :: rest =>
    if needle.isPrefixOf (c :: rest) then some ((c :: rest).drop needle.length)
    else afterSubstr needle rest

/-- Path component of a URL as urlparse extracts it: everything from the
first slash after the scheme separator; a scheme-less input is all path.
Query and fragment parts are not modelled. -/
def urlPath (url : String) : String :=
  match afterSubstr "://".toList url.toList with
  | some r => (r.dropWhile (fun c => decide (c ≠ '/'))).asString
  | none => url

/-- utils.get_mirror_link: re-host a huggingface path under
hf-mirror.com and normalize blob segments to resolve segments; any
non-huggingface or empty input yields the empty string. The urljoin step
is modelled as concatenation of host and absolute path. -/
def getMirrorLink (url : String) : String :=
  if url = "" || !hasSubstr url "huggingface.co" then ""
  else
    let p := urlPath url
    let p2 := if hasSubstr p "/resolve/" then strReplace p "/resolve/" "/blob/" else p
    let m := "https://hf-mirror.com" ++ p2
    if hasSubstr m "/blob/" then strReplace m "/blob/" "/resolve/" else m

/-- One extracted asset reference: contributing node id and type, and the
candidate filename (node ids are kept in their printed string form). -/
structure FileRef where
  node_id : String
  node_type : String
  file_path : String
deriving DecidableEq

/-- One merged entry of the ledger-creation dictionary of
create_csv_file, keyed by file_path. -/
structure MergedEntry where
  node_id : String
  node_type : String
  file_path : String
deriving DecidableEq

/-- The in-place mutation create_csv_file applies to the entry whose
filename matches a further reference: append the node id to its id
field, and append the node type only when it differs from the entire
accumulated type field.  Entries with other filenames are untouched. -/
def mergeUpdate (r : FileRef) (e : MergedEntry) : MergedEntry :=
  if e.file_path = r.file_path then
    { e with
      node_id := e.node_id ++ "," ++ r.node_id,
      node_type :=
        if r.node_type ≠ e.node_type then e.node_type ++ "," ++ r.node_type
        else e.node_type }
  else e

/-- One merging step of create_csv_file: when an entry with the same
filename exists, mutate that entry; otherwise start a fresh entry. -/
def mergeInto (acc : List MergedEntry) (r : FileRef) : List MergedEntry :=
  if acc.any (fun e => decide (e.file_path = r.file_path)) then
    acc.map (mergeUpdate r)
  else
    acc ++ [{ node_id := r.node_id, node_type := r.node_type, file_path := r.file_path }]

/-- The merged_files dictionary of create_csv_file, built over the whole
missing list in input order. -/
def mergedFiles (refs : List FileRef) : List MergedEntry :=
  refs.foldl mergeInto []

/-- Comma-joined list of strings, as the successive f-string appends of
create_csv_file produce. -/
def joinComma : List String → String
  | [] => ""
  | [x] => x
  | x :: y :: t => x ++ "," ++ joinComma (y :: t)

/-- The node-type field that create_csv_file accumulates for a group of
contributing types: each further type is appended only when it differs
from the whole accumulated string. -/
def mergeTypes : List String → String
  | [] => ""
  | t :: rest => rest.foldl (fun acc ty => if ty ≠ acc then acc ++ "," ++ ty else acc) t

/-- First-occurrence deduplication of a list of strings. -/
def dedupKeepFirst (l : List String) : List String :=
  l.foldl (fun acc t => if t ∈ acc then acc else acc ++ [t]) []

/-- Modelled from the spec wording of the claimed node-type field: the
comma-joined, deduplicated list of the contributing node types. -/
def specDedupTypeField (types : List String) : String :=
  joinComma (dedupKeepFirst types)

/-- Code-point lexicographic comparison of character lists, the order
Python sorted uses on the filename key. -/
def listLe : List Char → List Char → Bool
  | [], _ => true
  | _ :: _, [] => false
  | a :: s, b :: t =>
    if a.toNat < b.toNat then true
    else if b.toNat < a.toNat then false
    else listLe s t

/-- Filename comparison for the final sort of the merged list. -/
def pathLe (x y : MergedEntry) : Bool :=
  listLe x.file_path.toList y.file_path.toList

/-- Ordered insertion for the sort of the merged list. -/
def insertByPath (e : MergedEntry) : List MergedEntry → List MergedEntry
  | [] => [e]
  | a :: t => if pathLe e a then e :: a :: t else a :: insertByPath e t

/-- The sorted(merged, key filename) step of create_csv_file. -/
def sortByPath : List MergedEntry → List MergedEntry
  | [] => []
  | e :: t => insertByPath e (sortByPath t)

/-- Pair each element with its position, counting from the first
argument (the enumerate of the CSV writer loop, starting at 1). -/
def numberFrom : Nat → List MergedEntry → List (Nat × MergedEntry)
  | _, [] => []
  | k, e :: t => (k, e) :: numberFrom (k + 1) t

/-- AnalysisModel._get_search_url: a CJK-containing keyword is aimed at
liblib.art, any other keyword at huggingface.co, both through the same
search front end. -/
def getSearchQuery (kw : String) : String × String :=
  if containsChinese kw then
    ("https://www.bing.com/?setlang=en-US", "site:liblib.art \"" ++ kw ++ "\"")
  else
    ("https://www.bing.com/?setlang=en-US", "site:huggingface.co \"" ++ kw ++ "\"")

/-- The stored search link of a fresh ledger row: the site query with
spaces and quotes URL-encoded, appended to the search URL. -/
def searchLinkFor (fp : String) : String :=
  "https://www.bing.com/search?q=" ++
    strReplace (strReplace (getSearchQuery fp).2 " " "+") "\"" "%22"

/-- One persisted ledger row, with the column set of the CSV file:
sequence number, merged node ids, merged node types, filename, status,
download link, mirror link, search link (all kept as strings). -/
structure Row where
  seq : String
  nodeId : String
  nodeType : String
  filename : String
  status : String
  downloadLink : String
  mirrorLink : String
  searchLink : String
deriving DecidableEq

/-- The CSV row create_csv_file writes for one numbered merged entry:
status and both link columns start empty, the search link is generated
from the filename. -/
def rowOfEntry (p : Nat × MergedEntry) : Row :=
  { seq := toString p.1
    nodeId := p.2.node_id
    nodeType := p.2.node_type
    filename := p.2.file_path
    status := ""
    downloadLink := ""
    mirrorLink := ""
    searchLink := searchLinkFor p.2.file_path }

/-- The full ledger create_csv_file writes for a list of missing
references: merge by filename, sort by filename, number from one. -/
def ledgerRows (refs : List FileRef) : List Row :=
  (numberFrom 1 (sortByPath (mergedFiles refs))).map rowOfEntry

/-- The configured extension set probed for extension-less names. -/
def modelExtensions : List String :=
  [".safetensors", ".pth", ".ckpt", ".pt", ".bin", ".onnx"]

/-- Basename part of a path (the part after the last slash). -/
def afterLastSlash (cs : List Char) : List Char :=
  (cs.reverse.takeWhile (fun c => decide (c ≠ '/'))).reverse

/-- Extension as os.path.splitext extracts it: the suffix from the last
dot of the basename, the leading dots of the basename not counting. -/
def pyExtOf (s : String) : String :=
  let base := afterLastSlash s.toList
  let rest := base.dropWhile (fun c => decide (c = '.'))
  if rest.contains '.' then
    ('.' :: (rest.reverse.takeWhile (fun c => decide (c ≠ '.'))).reverse).asString
  else ""

/-- os.path.exists over the modelled filesystem: the list of paths that
exist. -/
def pathIn (fs : List String) (p : String) : Bool :=
  fs.any (fun q => decide (q = p))

/-- os.path.join of a base directory and a path, for the slash-separated
form the program builds. -/
def joinPath (base p : String) : String :=
  if strBeginsWith p "/" then p
  else if base = "" then p
  else if strEndsWith base "/" then base ++ p
  else base ++ "/" ++ p

/-- The existence probe of find_missing_models for one candidate
filename: check the name verbatim and relative to the workflow
directory; when both fail and the name has no extension, probe every
configured extension appended to the bare name, verbatim and relative,
stopping at the first hit. -/
def checkModelExists (fs : List String) (baseDir filePath : String) : Bool :=
  let ext := pyExtOf filePath
  let found := pathIn fs filePath || pathIn fs (joinPath baseDir filePath)
  if !found && ext = "" then
    modelExtensions.any (fun mext =>
      pathIn fs (filePath ++ mext) || pathIn fs (joinPath baseDir (filePath ++ mext)))
  else found

/-- Outcome of one browser search round trip for one ledger row, as the
resolution loop of search_model_links observes it: an exception raised
anywhere in the row's try block, a missing search box, a missing result
container, a result container without a first link, or a first result
URL (possibly empty when the href attribute is missing). -/
inductive SearchOutcome where
  | exception
  | noSearchBox
  | noResults
  | noLink
  | link (url : String)
deriving DecidableEq

/-- Blob-to-resolve rewriting of a huggingface result link. -/
def downloadFromLink (url : String) : String :=
  if hasSubstr url "/blob/" then strReplace url "/blob/" "/resolve/" else url

/-- The row update search_model_links performs for one processed keyword,
as a function of the observed outcome: errors mark the row 搜索错误,
missing results mark it 未找到, and a first result URL is classified
against the domain expected for the keyword. -/
def applyOutcome (kw : String) (o : SearchOutcome) (r : Row) : Row :=
  match o with
  | .exception => { r with status := "搜索错误" }
  | .noSearchBox => { r with status := "搜索错误" }
  | .noResults => { r with status := "未找到" }
  | .noLink => { r with status := "未找到" }
  | .link url =>
    if containsChinese kw then
      if url ≠ "" && hasSubstr url "liblib.art" then
        { r with downloadLink := "", mirrorLink := "", searchLink := url, status := "已处理" }
      else { r with status := "未找到LibLib" }
    else
      if url ≠ "" && hasSubstr url "huggingface.co" then
        { r with downloadLink := downloadFromLink url, mirrorLink := getMirrorLink url,
                 searchLink := "", status := "已处理" }
      else { r with status := "未找到HF" }

/-- The selection test of the keyword-gathering loop: a row enters the
work list unless its filename is empty, or it is already 已处理 with a
non-empty download link or a stored search link that is a URL. -/
def rowSelected (r : Row) : Bool :=
  decide (r.filename ≠ "") &&
    !(decide (r.status = "已处理") &&
      (decide (pyStrip r.downloadLink ≠ "") || strBeginsWith (pyStrip r.searchLink) "http"))

/-- The keyword-gathering loop of search_model_links: every selected row
contributes its dataframe index and its filename with the CJK prefix
removed. -/
def selectWork : Nat → List Row → List (Nat × String)
  | _, [] => []
  | k, r :: t =>
    if rowSelected r then (k, removeChinesePrefixFn r.filename) :: selectWork (k + 1) t
    else selectWork (k + 1) t

/-- One iteration of the search loop: update the addressed row from the
oracle outcome, then persist the whole ledger (the finally block's
to_csv), recorded as one snapshot. -/
def searchStep (outcome : Nat → SearchOutcome) (st : List Row × List (List Row))
    (item : Nat × String) : List Row × List (List Row) :=
  let rows2 := modifyAt (applyOutcome item.2 (outcome item.1)) item.1 st.1
  (rows2, st.2 ++ [rows2])

/-- The whole resolution run of search_model_links over a ledger: fold
the search loop over the work list, then write the final ledger once
more. Returns the final rows and every ledger state written to disk. -/
def runSearch (rows : List Row) (outcome : Nat → SearchOutcome) :
    List Row × List (List Row) :=
  let res := (selectWork 0 rows).foldl (searchStep outcome) (rows, [])
  (res.1, res.2 ++ [res.1])

/-- Row-by-row description of the final ledger of a resolution run:
selected rows receive the outcome for their index applied to their
stripped filename, the rest stay unchanged. -/
def resultMap (outcome : Nat → SearchOutcome) : Nat → List Row → List Row
  | _, [] => []
  | k, r :: t =>
    (if rowSelected r then applyOutcome (removeChinesePrefixFn r.filename) (outcome k) r
     else r) :: resultMap outcome (k + 1) t

/-- The alias-mapping-then-strip normalization that produces the query
term of an asset reference. -/
def normalizeQueryTerm (maps : List Mapping) (raw : String) : String :=
  removeChinesePrefixFn (getCorrectedName maps raw)

/-- Alias-map states reachable from the empty store through the three
mutating operations of IrregularNamesModel. -/
inductive ReachableAliasState : List Mapping → Prop where
  | empty : ReachableAliasState []
  | add (s : List Mapping) (newId origName corrName notes : String)
      (h : ReachableAliasState s) :
      ReachableAliasState (addMapping s newId origName corrName notes).2
  | update (s : List Mapping) (mid newOrig newCorr newNotes : String)
      (h : ReachableAliasState s) :
      ReachableAliasState (updateMapping s mid newOrig newCorr newNotes).2
  | del (s : List Mapping) (mid : String) (h : ReachableAliasState s) :
      ReachableAliasState (deleteMapping s mid).2

/-- Invariant of the merging loop of create_csv_file, relating the
accumulated dictionary to the references consumed so far: filenames are
pairwise distinct, every entry's id and type fields are the comma-join
and the conditional type-fold of its group of already-seen references,
every entry stems from a seen reference, and every seen reference has an
entry. -/
def mergeInv (acc : List MergedEntry) (seen : List FileRef) : Prop :=
  acc.Pairwise (fun a b => a.file_path ≠ b.file_path) ∧
  (∀ e ∈ acc,
    e.node_id =
      joinComma ((seen.filter (fun y => decide (y.file_path = e.file_path))).map FileRef.node_id) ∧
    e.node_type =
      mergeTypes ((seen.filter (fun y => decide (y.file_path = e.file_path))).map FileRef.node_type) ∧
    ∃ y ∈ seen, y.file_path = e.file_path) ∧
  (∀ y ∈ seen, ∃ e ∈ acc, e.file_path = y.file_path)

/-! ### Basic lemmas about the string model -/

theorem asString_eq_empty_iff (l : List Char) : l.asString = "" ↔ l = [] := by
  constructor
  · intro h
    have h2 := congrArg String.toList h
    simpa [List.asString, String.toList] using h2
  · intro h
    subst h
    rfl

theorem mem_dropWhile_of_not {p : Char → Bool} {l : List Char} {c : Char}
    (hm : c ∈ l) (hc : p c = false) : c ∈ l.dropWhile p := by
  induction l with
  | nil => cases hm
  | cons a t ih =>
    by_cases ha : p a = true
    · rw [List.dropWhile_cons_of_pos ha]
      rcases List.mem_cons.mp hm with h | h
      · subst h
        rw [hc] at ha
        cases ha
      · exact ih h
    · rw [List.dropWhile_cons_of_neg ha]
      exact hm

theorem mem_pyStripL {l : List Char} {c : Char}
    (hm : c ∈ l) (hc : isPySpace c = false) : c ∈ pyStripL l := by
  unfold pyStripL
  have h1 : c ∈ l.dropWhile isPySpace := mem_dropWhile_of_not hm hc
  have h2 : c ∈ (l.dropWhile isPySpace).reverse := List.mem_reverse.mpr h1
  have h3 : c ∈ (l.dropWhile isPySpace).reverse.dropWhile isPySpace :=
    mem_dropWhile_of_not h2 hc
  exact List.mem_reverse.mpr h3

theorem dropWhile_eq_self_of_not {p : Char → Bool} {l : List Char}
    (h : ∀ c ∈ l, p c = false) : l.dropWhile p = l := by
  cases l with
  | nil => rfl
  | cons a t => exact List.dropWhile_cons_of_neg (by simp [h a (List.mem_cons_self a t)])

theorem pyStripL_eq_self_of_no_space {l : List Char}
    (h : ∀ c ∈ l, isPySpace c = false) : pyStripL l = l := by
  unfold pyStripL
  rw [dropWhile_eq_self_of_not h]
  rw [dropWhile_eq_self_of_not (fun c hc => h c (List.mem_reverse.mp hc))]
  exact List.reverse_reverse l

theorem dropWhile_append_of_all {p : Char → Bool} {l1 l2 : List Char}
    (h : ∀ c ∈ l1, p c = true) : (l1 ++ l2).dropWhile p = l2.dropWhile p := by
  induction l1 with
  | nil => rfl
  | cons a t ih =>
    rw [List.cons_append, List.dropWhile_cons_of_pos (h a (List.mem_cons_self a t))]
    exact ih (fun c hc => h c (List.mem_cons_of_mem a hc))

theorem isPySpace_of_isSepChar_false {c : Char} (h : isSepChar c = false) :
    isPySpace c = false := by
  unfold isSepChar at h
  simp only [Bool.or_eq_false_iff] at h
  exact h.2

/-- Core of the query-term emptiness analysis: the stripped name is
non-empty as soon as the input survives trimming and, when it begins
with a CJK character, some character after the leading CJK run is
neither separator nor whitespace. -/
theorem removeChinesePrefixFn_ne_empty {s : String}
    (hne : pyStrip s ≠ "")
    (hrest : ¬(beginsWithCJK s = true ∧
      (s.toList.dropWhile isCJKStripChar).all isSepChar = true)) :
    removeChinesePrefixFn s ≠ "" := by
  unfold removeChinesePrefixFn
  by_cases hB : beginsWithCJK s = true
  · rw [if_pos hB]
    have hall : (s.toList.dropWhile isCJKStripChar).all isSepChar = false := by
      cases hal : (s.toList.dropWhile isCJKStripChar).all isSepChar with
      | false => rfl
      | true => exact absurd ⟨hB, hal⟩ hrest
    rw [List.all_eq_false] at hall
    obtain ⟨c, hcmem, hcsep⟩ := hall
    have hcsep2 : isSepChar c = false := by
      cases h2 : isSepChar c with
      | false => rfl
      | true => rw [h2] at hcsep; cases hcsep rfl
    have hcsp : isPySpace c = false := isPySpace_of_isSepChar_false hcsep2
    have h1 : c ∈ pyStripL (s.toList.dropWhile isCJKStripChar) := mem_pyStripL hcmem hcsp
    have h2 : c ∈ (pyStripL (s.toList.dropWhile isCJKStripChar)).dropWhile isSepChar :=
      mem_dropWhile_of_not h1 hcsep2
    have h3 : c ∈ pyStripL ((pyStripL (s.toList.dropWhile isCJKStripChar)).dropWhile isSepChar) :=
      mem_pyStripL h2 hcsp
    intro hempty
    rw [asString_eq_empty_iff] at hempty
    rw [hempty] at h3
    cases h3
  · rw [if_neg hB]
    intro hs
    subst hs
    exact hne rfl

/-- C4 (corrected). The query term is non-empty provided the
alias-mapped name survives trimming and is not a leading CJK run
followed only by separator and whitespace characters. -/
theorem c4_query_term_nonempty (maps : List Mapping) (raw : String)
    (hne : pyStrip (getCorrectedName maps raw) ≠ "")
    (hrest : ¬(beginsWithCJK (getCorrectedName maps raw) = true ∧
      ((getCorrectedName maps raw).toList.dropWhile isCJKStripChar).all isSepChar = true)) :
    normalizeQueryTerm maps raw ≠ "" :=
  removeChinesePrefixFn_ne_empty hne hrest

/-- C4, refuting the claim as stated: the raw name 中 is non-empty after
trimming, yet its query term (with an absent alias map) is empty. -/
theorem c4_all_cjk_counterexample :
    pyStrip "中" ≠ "" ∧ normalizeQueryTerm [] "中" = "" :=
  ⟨by decide, by decide⟩

theorem c4_query_term_nonempty_witness :
    pyStrip (getCorrectedName [] "中a") ≠ "" ∧
    ¬(beginsWithCJK (getCorrectedName [] "中a") = true ∧
      ((getCorrectedName [] "中a").toList.dropWhile isCJKStripChar).all isSepChar = true) ∧
    normalizeQueryTerm [] "中a" ≠ "" :=
  ⟨by decide, by decide, c4_query_term_nonempty [] "中a" (by decide) (by decide)⟩

/-- C8 (corrected). Re-normalizing a query term returns it unchanged
whenever the query term does not itself begin with a CJK character of
the stripped range; stripping can expose a new leading CJK character, in
which case a second application strips again. -/
theorem c8_strip_idempotent_on_output (s : String)
    (h : beginsWithCJK (removeChinesePrefixFn s) = false) :
    removeChinesePrefixFn (removeChinesePrefixFn s) = removeChinesePrefixFn s := by
  conv_lhs => rw [removeChinesePrefixFn]
  rw [if_neg (by rw [h]; exact Bool.false_ne_true)]

/-- C8, refuting the claim as stated: stripping 中_中abc yields 中abc,
whose re-normalization strips further to abc. -/
theorem c8_idempotence_counterexample :
    removeChinesePrefixFn (removeChinesePrefixFn "中_中abc") ≠
      removeChinesePrefixFn "中_中abc" := by decide

theorem c8_strip_idempotent_on_output_witness :
    beginsWithCJK (removeChinesePrefixFn "中a") = false ∧
    removeChinesePrefixFn (removeChinesePrefixFn "中a") = removeChinesePrefixFn "中a" :=
  ⟨by decide, c8_strip_idempotent_on_output "中a" (by decide)⟩

theorem isCJKStripChar_dash : isCJKStripChar '-' = false := by decide

theorem isSepChar_dash : isSepChar '-' = true := by decide

/-- C9 (corrected). No short-suffix retention exists in the code: for a
name made of a non-empty CJK run, a separator, and a short suffix free
of separators and CJK characters, remove_chinese_prefix returns the bare
suffix, not the unchanged name. -/
theorem c9_short_suffix_is_stripped (cjk sfx : List Char)
    (hc : cjk ≠ []) (hcall : cjk.all isCJKStripChar = true)
    (hs : sfx ≠ []) (hsall : sfx.all (fun c => !isSepChar c && !isCJKSearchChar c) = true)
    (hlen : sfx.length ≤ 5) :
    removeChinesePrefixFn ((cjk ++ '-' :: sfx).asString) = sfx.asString := by
  obtain ⟨c0, rest, rfl⟩ := List.exists_cons_of_ne_nil hc
  rw [List.all_cons, Bool.and_eq_true] at hcall
  obtain ⟨hc0, hrest⟩ := hcall
  have hsfx : ∀ c ∈ sfx, isSepChar c = false := by
    intro c hcm
    rw [List.all_eq_true] at hsall
    have h2 := hsall c hcm
    rw [Bool.and_eq_true, Bool.not_eq_true'] at h2
    exact h2.1
  have hsp : ∀ c ∈ sfx, isPySpace c = false :=
    fun c hcm => isPySpace_of_isSepChar_false (hsfx c hcm)
  have htl : ((c0 :: rest ++ '-' :: sfx).asString).toList = c0 :: (rest ++ '-' :: sfx) := rfl
  have hB : beginsWithCJK ((c0 :: rest ++ '-' :: sfx).asString) = true := by
    unfold beginsWithCJK
    rw [htl]
    exact hc0
  unfold removeChinesePrefixFn
  rw [if_pos hB, htl]
  rw [List.dropWhile_cons_of_pos hc0]
  rw [dropWhile_append_of_all (fun c hcm => by
    rw [List.all_eq_true] at hrest
    exact hrest c hcm)]
  rw [List.dropWhile_cons_of_neg (by simp [isCJKStripChar_dash])]
  have hnos : ∀ c ∈ '-' :: sfx, isPySpace c = false := by
    intro c hcm
    rcases List.mem_cons.mp hcm with h | h
    · subst h; decide
    · exact hsp c h
  rw [pyStripL_eq_self_of_no_space hnos]
  rw [List.dropWhile_cons_of_pos isSepChar_dash]
  rw [dropWhile_eq_self_of_not hsfx]
  rw [pyStripL_eq_self_of_no_space hsp]

/-- C9, refuting the claim as stated: the name 中文-v2 has a separator
and a short CJK-free suffix, yet its query term is the stripped v2, not
the unchanged name. -/
theorem c9_retention_counterexample :
    normalizeQueryTerm [] "中文-v2" ≠ "中文-v2" ∧
    normalizeQueryTerm [] "中文-v2" = "v2" :=
  ⟨by decide, by decide⟩

theorem c9_short_suffix_is_stripped_witness :
    "中文".toList ≠ [] ∧ "中文".toList.all isCJKStripChar = true ∧
    "v2".toList ≠ [] ∧
    "v2".toList.all (fun c => !isSepChar c && !isCJKSearchChar c) = true ∧
    "v2".toList.length ≤ 5 ∧
    removeChinesePrefixFn (("中文".toList ++ '-' :: "v2".toList).asString) = "v2".toList.asString :=
  ⟨by decide, by decide, by decide, by decide, by decide,
    c9_short_suffix_is_stripped "中文".toList "v2".toList
      (by decide) (by decide) (by decide) (by decide) (by decide)⟩

/-- C6 (corrected). The lookup tries exact, then whitespace-normalized,
then case-insensitive equality, first match winning, and falls back to
the input when nothing matches — except that an empty input name is
returned unchanged without consulting the map at all. -/
theorem c6_alias_lookup_priority (maps : List Mapping) (name : String) :
    getCorrectedName maps name = if name = "" then "" else specAliasLookup maps name := by
  by_cases hn : name = ""
  · subst hn
    rfl
  · rw [if_neg hn]
    unfold getCorrectedName specAliasLookup
    rw [if_neg hn]
    cases h1 : maps.find? (fun m => decide (m.original_name = name)) with
    | some m => simp [h1]
    | none =>
      cases h2 : maps.find? (fun m => decide (normalizeString m.original_name = normalizeString name)) with
      | some m => simp [h1, h2]
      | none =>
        cases h3 : maps.find? (fun m => decide (strLower m.original_name = strLower name)) with
        | some m => simp [h1, h2, h3]
        | none => simp [h1, h2, h3]

/-- C6, refuting the claim as stated: with a mapping whose original name
is a single space (reachable through add_mapping), the empty input name
normalizes equal to it, so the claimed priority matching returns its
corrected name, but the code returns the empty input unchanged. -/
theorem c6_empty_name_counterexample :
    getCorrectedName [{ id := "i1", original_name := " ", corrected_name := "x", notes := "" }] "" ≠
      specAliasLookup [{ id := "i1", original_name := " ", corrected_name := "x", notes := "" }] "" := by
  decide

theorem pathIn_iff (fs : List String) (p : String) : pathIn fs p = true ↔ p ∈ fs := by
  unfold pathIn
  rw [List.any_eq_true]
  constructor
  · rintro ⟨q, hq, he⟩
    rw [of_decide_eq_true he] at hq
    exact hq
  · intro hp2
    exact ⟨p, hp2, by simp⟩

/-- C5 (confirmed). For an extension-less candidate the existence check
succeeds exactly when the name exists verbatim, or under the workflow
directory, or with one of the configured extensions appended to the bare
name, checked verbatim and under the workflow directory. -/
theorem c5_extension_probe (fs : List String) (baseDir name : String)
    (hext : pyExtOf name = "") :
    (checkModelExists fs baseDir name = true ↔
      name ∈ fs ∨ joinPath baseDir name ∈ fs ∨
      ∃ mext ∈ modelExtensions,
        (name ++ mext) ∈ fs ∨ joinPath baseDir (name ++ mext) ∈ fs) := by
  unfold checkModelExists
  rw [hext]
  cases hfound : pathIn fs name || pathIn fs (joinPath baseDir name) with
  | true =>
    simp only [hfound, Bool.not_true, Bool.false_and, if_neg (by decide : ¬(false = true))]
    rw [Bool.or_eq_true, pathIn_iff, pathIn_iff] at hfound
    simp only [true_iff]
    rcases hfound with h | h
    · exact Or.inl h
    · exact Or.inr (Or.inl h)
  | false =>
    have hn1 : ¬ name ∈ fs := by
      intro hmem
      rw [Bool.or_eq_false_iff] at hfound
      rw [← pathIn_iff fs name] at hmem
      rw [hfound.1] at hmem
      cases hmem
    have hn2 : ¬ joinPath baseDir name ∈ fs := by
      intro hmem
      rw [Bool.or_eq_false_iff] at hfound
      rw [← pathIn_iff fs (joinPath baseDir name)] at hmem
      rw [hfound.2] at hmem
      cases hmem
    simp only [hfound, Bool.not_false, Bool.true_and, decide_True, if_pos]
    rw [List.any_eq_true]
    constructor
    · rintro ⟨mext, hm, hp⟩
      rw [Bool.or_eq_true, pathIn_iff, pathIn_iff] at hp
      exact Or.inr (Or.inr ⟨mext, hm, hp⟩)
    · rintro (h | h | ⟨mext, hm, hp⟩)
      · exact absurd h hn1
      · exact absurd h hn2
      · refine ⟨mext, hm, ?_⟩
        rw [Bool.or_eq_true, pathIn_iff, pathIn_iff]
        exact hp

theorem c5_extension_probe_witness :
    pyExtOf "foo" = "" ∧
    (checkModelExists ["foo.safetensors"] "b" "foo" = true ↔
      "foo" ∈ ["foo.safetensors"] ∨ joinPath "b" "foo" ∈ ["foo.safetensors"] ∨
      ∃ mext ∈ modelExtensions,
        ("foo" ++ mext) ∈ ["foo.safetensors"] ∨
          joinPath "b" ("foo" ++ mext) ∈ ["foo.safetensors"]) :=
  ⟨by decide, c5_extension_probe ["foo.safetensors"] "b" "foo" (by decide)⟩

/-! ### Lemmas about the resolution run -/

theorem modifyAt_append {α : Type} (f : α → α) (done : List α) (r : α) (t : List α) :
    modifyAt f done.length (done ++ r :: t) = done ++ f r :: t := by
  induction done with
  | nil => rfl
  | cons a d ih =>
    simp only [List.length_cons, List.cons_append, modifyAt, List.append_eq]
    rw [ih]

theorem runSearch_fold_spec (outcome : Nat → SearchOutcome) :
    ∀ (rows done : List Row) (snaps : List (List Row)),
    ((selectWork done.length rows).foldl (searchStep outcome) (done ++ rows, snaps)).1 =
        done ++ resultMap outcome done.length rows ∧
    ((selectWork done.length rows).foldl (searchStep outcome) (done ++ rows, snaps)).2.length =
        snaps.length + (selectWork done.length rows).length := by
  intro rows
  induction rows with
  | nil =>
    intro done snaps
    simp [selectWork, resultMap]
  | cons r t ih =>
    intro done snaps
    have hsplit : done ++ r :: t = (done ++ [r]) ++ t := by simp
    have hlen : (done ++ [r]).length = done.length + 1 := by simp
    cases hsel : rowSelected r with
    | false =>
      have hsw : selectWork done.length (r :: t) = selectWork (done.length + 1) t := by
        simp [selectWork, hsel]
      have hrm : resultMap outcome done.length (r :: t) =
          r :: resultMap outcome (done.length + 1) t := by
        simp [resultMap, hsel]
      rw [hsw, hrm, hsplit]
      have ih2 := ih (done ++ [r]) snaps
      rw [hlen] at ih2
      constructor
      · rw [ih2.1]
        simp
      · rw [ih2.2]
    | true =>
      have hsw : selectWork done.length (r :: t) =
          (done.length, removeChinesePrefixFn r.filename) :: selectWork (done.length + 1) t := by
        simp [selectWork, hsel]
      have hrm : resultMap outcome done.length (r :: t) =
          applyOutcome (removeChinesePrefixFn r.filename) (outcome done.length) r ::
            resultMap outcome (done.length + 1) t := by
        simp [resultMap, hsel]
      rw [hsw, hrm, List.foldl_cons]
      have hstep : searchStep outcome (done ++ r :: t, snaps)
          (done.length, removeChinesePrefixFn r.filename) =
          ((done ++ [applyOutcome (removeChinesePrefixFn r.filename) (outcome done.length) r]) ++ t,
           snaps ++ [(done ++ [applyOutcome (removeChinesePrefixFn r.filename) (outcome done.length) r]) ++ t]) := by
        unfold searchStep
        rw [modifyAt_append]
        simp
      rw [hstep]
      have ih2 := ih (done ++ [applyOutcome (removeChinesePrefixFn r.filename) (outcome done.length) r])
        (snaps ++ [(done ++ [applyOutcome (removeChinesePrefixFn r.filename) (outcome done.length) r]) ++ t])
      rw [show (done ++ [applyOutcome (removeChinesePrefixFn r.filename) (outcome done.length) r]).length
            = done.length + 1 by simp] at ih2
      constructor
      · rw [ih2.1]
        simp
      · rw [ih2.2]
        simp
        omega

theorem runSearch_fst (rows : List Row) (outcome : Nat → SearchOutcome) :
    (runSearch rows outcome).1 = resultMap outcome 0 rows := by
  have h := (runSearch_fold_spec outcome rows [] []).1
  simp only [List.nil_append, List.length_nil] at h
  unfold runSearch
  simp only [h]

theorem runSearch_snd_len (rows : List Row) (outcome : Nat → SearchOutcome) :
    (runSearch rows outcome).2.length = (selectWork 0 rows).length + 1 := by
  have h := (runSearch_fold_spec outcome rows [] []).2
  simp only [List.nil_append, List.length_nil, Nat.zero_add] at h
  unfold runSearch
  simp [h]

theorem runSearch_final_persisted (rows : List Row) (outcome : Nat → SearchOutcome) :
    (runSearch rows outcome).1 ∈ (runSearch rows outcome).2 := by
  unfold runSearch
  simp

theorem resultMap_get (outcome : Nat → SearchOutcome) :
    ∀ (t : List Row) (k i : Nat),
    (resultMap outcome k t).get? i =
      (t.get? i).map (fun r =>
        if rowSelected r then applyOutcome (removeChinesePrefixFn r.filename) (outcome (k + i)) r
        else r) := by
  intro t
  induction t with
  | nil => intro k i; simp [resultMap]
  | cons r t2 ih =>
    intro k i
    cases i with
    | zero => simp [resultMap]
    | succ n =>
      simp only [resultMap, List.get?_cons_succ]
      rw [ih (k + 1) n]
      have : k + 1 + n = k + (n + 1) := by omega
      rw [this]

theorem selectWork_mem (kw : String) :
    ∀ (t : List Row) (k i : Nat), (i, kw) ∈ selectWork k t →
    k ≤ i ∧ ∃ r, t.get? (i - k) = some r ∧ rowSelected r = true ∧
      kw = removeChinesePrefixFn r.filename := by
  intro t
  induction t with
  | nil => intro k i h; simp [selectWork] at h
  | cons r t2 ih =>
    intro k i h
    cases hsel : rowSelected r with
    | true =>
      rw [show selectWork k (r :: t2) =
          (k, removeChinesePrefixFn r.filename) :: selectWork (k + 1) t2 by
        simp [selectWork, hsel]] at h
      rcases List.mem_cons.mp h with he | ht
      · have hik : i = k := congrArg Prod.fst he
        have hkw : kw = removeChinesePrefixFn r.filename := congrArg Prod.snd he
        subst hik
        refine ⟨Nat.le_refl i, r, ?_, hsel, hkw⟩
        simp
      · obtain ⟨hle, q, hget, hsel2, hkw⟩ := ih (k + 1) i ht
        refine ⟨Nat.le_of_succ_le hle, q, ?_, hsel2, hkw⟩
        have hik : i - k = (i - (k + 1)) + 1 := by omega
        rw [hik, List.get?_cons_succ]
        exact hget
    | false =>
      rw [show selectWork k (r :: t2) = selectWork (k + 1) t2 by simp [selectWork, hsel]] at h
      obtain ⟨hle, q, hget, hsel2, hkw⟩ := ih (k + 1) i h
      refine ⟨Nat.le_of_succ_le hle, q, ?_, hsel2, hkw⟩
      have hik : i - k = (i - (k + 1)) + 1 := by omega
      rw [hik, List.get?_cons_succ]
      exact hget

/-- C2 (confirmed). A row already 已处理 whose download link is non-empty
after trimming, or whose stored search link is a URL, is excluded from
the work list (the provider is never queried for it) and reappears
unchanged in the final ledger. -/
theorem c2_resolved_rows_skipped (rows : List Row) (outcome : Nat → SearchOutcome)
    (i : Nat) (r : Row)
    (hget : rows.get? i = some r)
    (hstatus : r.status = "已处理")
    (hlink : pyStrip r.downloadLink ≠ "" ∨ strBeginsWith (pyStrip r.searchLink) "http" = true) :
    (runSearch rows outcome).1.get? i = some r ∧
    i ∉ (selectWork 0 rows).map Prod.fst := by
  have hsel : rowSelected r = false := by
    unfold rowSelected
    rw [hstatus]
    rcases hlink with h | h
    · simp [h]
    · simp [h]
  constructor
  · rw [runSearch_fst, resultMap_get outcome rows 0 i, hget]
    simp [hsel]
  · intro hmem
    rw [List.mem_map] at hmem
    obtain ⟨p, hp, hfst⟩ := hmem
    obtain ⟨i2, kw⟩ := p
    have hi : i2 = i := hfst
    subst hi
    obtain ⟨-, q, hq, hqsel, -⟩ := selectWork_mem kw rows 0 i2 hp
    rw [Nat.sub_zero, hget] at hq
    have hqr : q = r := by
      injection hq with h2
      exact h2.symm
    rw [hqr, hsel] at hqsel
    cases hqsel

theorem c2_resolved_rows_skipped_witness :
    ([(⟨"1", "5", "T", "f.pt", "已处理", "http://x", "", ""⟩ : Row)].get? 0 =
      some (⟨"1", "5", "T", "f.pt", "已处理", "http://x", "", ""⟩ : Row)) ∧
    (pyStrip (Row.downloadLink ⟨"1", "5", "T", "f.pt", "已处理", "http://x", "", ""⟩) ≠ "" ∨
      strBeginsWith (pyStrip (Row.searchLink ⟨"1", "5", "T", "f.pt", "已处理", "http://x", "", ""⟩)) "http" = true) ∧
    ((runSearch [(⟨"1", "5", "T", "f.pt", "已处理", "http://x", "", ""⟩ : Row)]
        (fun _ => SearchOutcome.noLink)).1.get? 0 =
      some (⟨"1", "5", "T", "f.pt", "已处理", "http://x", "", ""⟩ : Row) ∧
      0 ∉ (selectWork 0 [(⟨"1", "5", "T", "f.pt", "已处理", "http://x", "", ""⟩ : Row)]).map Prod.fst) :=
  ⟨by decide, Or.inl (by decide),
    c2_resolved_rows_skipped [(⟨"1", "5", "T", "f.pt", "已处理", "http://x", "", ""⟩ : Row)]
      (fun _ => SearchOutcome.noLink) 0 ⟨"1", "5", "T", "f.pt", "已处理", "http://x", "", ""⟩
      (by decide) (by decide) (Or.inl (by decide))⟩

/-- C3 (corrected). The search domain for a pending row is chosen from
the post-strip keyword, the stored filename after CJK-prefix removal
(not from the pre-strip decision name): a keyword still containing CJK
after stripping targets liblib.art and only a liblib.art first result is
marked 已处理, any other keyword targets huggingface.co and only a
huggingface.co first result is marked 已处理. -/
theorem c3_domain_from_stripped_keyword (rows : List Row) (i : Nat) (kw : String) (r : Row)
    (hmem : (i, kw) ∈ selectWork 0 rows) (hget : rows.get? i = some r) :
    kw = removeChinesePrefixFn r.filename ∧
    (containsChinese kw = true →
      (getSearchQuery kw).2 = "site:liblib.art \"" ++ kw ++ "\"" ∧
      ∀ url, (applyOutcome kw (SearchOutcome.link url) r).status = "已处理" ↔
        (url ≠ "" ∧ hasSubstr url "liblib.art" = true)) ∧
    (containsChinese kw = false →
      (getSearchQuery kw).2 = "site:huggingface.co \"" ++ kw ++ "\"" ∧
      ∀ url, (applyOutcome kw (SearchOutcome.link url) r).status = "已处理" ↔
        (url ≠ "" ∧ hasSubstr url "huggingface.co" = true)) := by
  obtain ⟨-, q, hq, -, hkw⟩ := selectWork_mem kw rows 0 i hmem
  rw [Nat.sub_zero, hget] at hq
  have hqr : q = r := by
    injection hq with h2
    exact h2.symm
  subst hqr
  refine ⟨hkw, ?_, ?_⟩
  · intro hC
    constructor
    · unfold getSearchQuery
      rw [if_pos hC]
    · intro url
      simp only [applyOutcome]
      rw [if_pos hC]
      cases hcond : (decide (url ≠ "") && hasSubstr url "liblib.art") with
      | true =>
        rw [if_pos rfl]
        rw [Bool.and_eq_true, decide_eq_true_iff] at hcond
        exact ⟨fun _ => hcond, fun _ => rfl⟩
      | false =>
        rw [if_neg Bool.false_ne_true]
        constructor
        · intro habs
          have habs2 : ("未找到LibLib" : String) = "已处理" := habs
          exact absurd habs2 (by decide)
        · rintro ⟨hu, hsub⟩
          have hx : decide (url ≠ "") = true := decide_eq_true hu
          rw [hx, hsub] at hcond
          exact absurd hcond (by decide)
  · intro hC
    have hC2 : ¬ (containsChinese kw = true) := by simp [hC]
    constructor
    · unfold getSearchQuery
      rw [if_neg hC2]
    · intro url
      simp only [applyOutcome]
      rw [if_neg hC2]
      cases hcond : (decide (url ≠ "") && hasSubstr url "huggingface.co") with
      | true =>
        rw [if_pos rfl]
        rw [Bool.and_eq_true, decide_eq_true_iff] at hcond
        exact ⟨fun _ => hcond, fun _ => rfl⟩
      | false =>
        rw [if_neg Bool.false_ne_true]
        constructor
        · intro habs
          have habs2 : ("未找到HF" : String) = "已处理" := habs
          exact absurd habs2 (by decide)
        · rintro ⟨hu, hsub⟩
          have hx : decide (url ≠ "") = true := decide_eq_true hu
          rw [hx, hsub] at hcond
          exact absurd hcond (by decide)

/-- C3, refuting the claim as stated: the stored filename
万相clip.safetensors contains CJK, yet its work-list keyword is the
stripped clip.safetensors, the issued query targets huggingface.co, and
a huggingface.co first result marks the row 已处理. -/
theorem c3_pre_strip_counterexample :
    containsChinese "万相clip.safetensors" = true ∧
    selectWork 0 [(⟨"1", "1", "CLIPVisionLoader", "万相clip.safetensors", "", "", "", ""⟩ : Row)] =
      [(0, "clip.safetensors")] ∧
    (getSearchQuery "clip.safetensors").2 = "site:huggingface.co \"clip.safetensors\"" ∧
    ((runSearch [(⟨"1", "1", "CLIPVisionLoader", "万相clip.safetensors", "", "", "", ""⟩ : Row)]
        (fun _ => SearchOutcome.link "https://huggingface.co/m/blob/f")).1.map Row.status) =
      ["已处理"] :=
  ⟨by decide, by decide, by decide, by decide⟩

theorem c3_domain_from_stripped_keyword_witness :
    ((0, "clip.safetensors") ∈
      selectWork 0 [(⟨"1", "1", "CLIPVisionLoader", "万相clip.safetensors", "", "", "", ""⟩ : Row)]) ∧
    ([(⟨"1", "1", "CLIPVisionLoader", "万相clip.safetensors", "", "", "", ""⟩ : Row)].get? 0 =
      some (⟨"1", "1", "CLIPVisionLoader", "万相clip.safetensors", "", "", "", ""⟩ : Row)) ∧
    "clip.safetensors" =
      removeChinesePrefixFn (Row.filename ⟨"1", "1", "CLIPVisionLoader", "万相clip.safetensors", "", "", "", ""⟩) :=
  ⟨by decide, by decide,
    (c3_domain_from_stripped_keyword
      [(⟨"1", "1", "CLIPVisionLoader", "万相clip.safetensors", "", "", "", ""⟩ : Row)]
      0 "clip.safetensors" ⟨"1", "1", "CLIPVisionLoader", "万相clip.safetensors", "", "", "", ""⟩
      (by decide) (by decide)).1⟩

/-- C7 (confirmed). When the search round trip for one worked row raises,
that row alone is marked 搜索错误 in the final ledger, the ledger is
persisted once per worked row and once more at the end, a persisted
ledger state carries the 搜索错误 mark, and every other worked row still
receives the outcome of its own attempt. -/
theorem c7_error_isolation (rows : List Row) (outcome : Nat → SearchOutcome)
    (i : Nat) (kw : String)
    (hmem : (i, kw) ∈ selectWork 0 rows)
    (hexc : outcome i = SearchOutcome.exception) :
    ((runSearch rows outcome).1.get? i).map Row.status = some "搜索错误" ∧
    (runSearch rows outcome).2.length = (selectWork 0 rows).length + 1 ∧
    (∃ snap ∈ (runSearch rows outcome).2, (snap.get? i).map Row.status = some "搜索错误") ∧
    (∀ j kw2 q, (j, kw2) ∈ selectWork 0 rows → rows.get? j = some q →
      (runSearch rows outcome).1.get? j = some (applyOutcome kw2 (outcome j) q)) := by
  have hmain : ∀ j kw2 q, (j, kw2) ∈ selectWork 0 rows → rows.get? j = some q →
      (runSearch rows outcome).1.get? j = some (applyOutcome kw2 (outcome j) q) := by
    intro j kw2 q hm hg
    obtain ⟨-, q2, hq2, hsel2, hkw2⟩ := selectWork_mem kw2 rows 0 j hm
    rw [Nat.sub_zero, hg] at hq2
    have hqq : q2 = q := by
      injection hq2 with h2
      exact h2.symm
    subst hqq
    rw [runSearch_fst, resultMap_get outcome rows 0 j, hg]
    simp [hsel2, hkw2]
  have hi : ((runSearch rows outcome).1.get? i).map Row.status = some "搜索错误" := by
    obtain ⟨-, q, hq, hsel2, hkw⟩ := selectWork_mem kw rows 0 i hmem
    rw [Nat.sub_zero] at hq
    have h2 := hmain i kw q hmem hq
    rw [h2, hexc]
    rfl
  refine ⟨hi, runSearch_snd_len rows outcome, ?_, hmain⟩
  exact ⟨(runSearch rows outcome).1, runSearch_final_persisted rows outcome, hi⟩

theorem c7_error_isolation_witness :
    ((0, "a.pt") ∈ selectWork 0
      [(⟨"1", "1", "LoraLoader", "a.pt", "", "", "", ""⟩ : Row),
       (⟨"2", "2", "VAELoader", "b.pt", "", "", "", ""⟩ : Row)]) ∧
    ((fun k => if k = 0 then SearchOutcome.exception
               else SearchOutcome.link "https://huggingface.co/m/blob/f") 0 =
      SearchOutcome.exception) ∧
    (((runSearch
        [(⟨"1", "1", "LoraLoader", "a.pt", "", "", "", ""⟩ : Row),
         (⟨"2", "2", "VAELoader", "b.pt", "", "", "", ""⟩ : Row)]
        (fun k => if k = 0 then SearchOutcome.exception
                  else SearchOutcome.link "https://huggingface.co/m/blob/f")).1.get? 0).map
      Row.status = some "搜索错误") :=
  ⟨by decide, by decide,
    (c7_error_isolation
      [(⟨"1", "1", "LoraLoader", "a.pt", "", "", "", ""⟩ : Row),
       (⟨"2", "2", "VAELoader", "b.pt", "", "", "", ""⟩ : Row)]
      (fun k => if k = 0 then SearchOutcome.exception
                else SearchOutcome.link "https://huggingface.co/m/blob/f")
      0 "a.pt" (by decide) (by decide)).1⟩

/-! ### Lemmas about ledger creation -/

theorem mergeUpdate_file_path (r : FileRef) (e : MergedEntry) :
    (mergeUpdate r e).file_path = e.file_path := by
  unfold mergeUpdate
  by_cases h : e.file_path = r.file_path
  · rw [if_pos h]
  · rw [if_neg h]

theorem mergeUpdate_eq_of_ne {r : FileRef} {e : MergedEntry}
    (h : ¬ e.file_path = r.file_path) : mergeUpdate r e = e := by
  unfold mergeUpdate
  rw [if_neg h]

theorem mergeUpdate_node_id_of_eq {r : FileRef} {e : MergedEntry}
    (h : e.file_path = r.file_path) :
    (mergeUpdate r e).node_id = e.node_id ++ "," ++ r.node_id := by
  unfold mergeUpdate
  rw [if_pos h]

theorem mergeUpdate_node_type_of_eq {r : FileRef} {e : MergedEntry}
    (h : e.file_path = r.file_path) :
    (mergeUpdate r e).node_type =
      if r.node_type ≠ e.node_type then e.node_type ++ "," ++ r.node_type else e.node_type := by
  unfold mergeUpdate
  rw [if_pos h]

theorem joinComma_append_last (x : String) (t : List String) (a : String) :
    joinComma ((x :: t) ++ [a]) = joinComma (x :: t) ++ "," ++ a := by
  induction t generalizing x with
  | nil => rfl
  | cons y t2 ih =>
    show joinComma (x :: y :: (t2 ++ [a])) = (x ++ "," ++ joinComma (y :: t2)) ++ "," ++ a
    rw [show joinComma (x :: y :: (t2 ++ [a])) = x ++ "," ++ joinComma (y :: (t2 ++ [a])) from rfl]
    rw [show (y :: (t2 ++ [a])) = (y :: t2) ++ [a] from rfl]
    rw [ih y]
    simp [String.append_assoc]

theorem mergeTypes_append_last (x : String) (t : List String) (a : String) :
    mergeTypes ((x :: t) ++ [a]) =
      if a ≠ mergeTypes (x :: t) then mergeTypes (x :: t) ++ "," ++ a
      else mergeTypes (x :: t) := by
  show (t ++ [a]).foldl (fun acc ty => if ty ≠ acc then acc ++ "," ++ ty else acc) x = _
  rw [List.foldl_append]
  rfl

theorem mergeInv_step (x : FileRef) {acc : List MergedEntry} {seen : List FileRef}
    (h : mergeInv acc seen) : mergeInv (mergeInto acc x) (seen ++ [x]) := by
  obtain ⟨hpw, hfields, hpres⟩ := h
  have hfilt : ∀ key : String, (seen ++ [x]).filter (fun y => decide (y.file_path = key)) =
      seen.filter (fun y => decide (y.file_path = key)) ++
        (if x.file_path = key then [x] else []) := by
    intro key
    rw [List.filter_append]
    by_cases hk : x.file_path = key
    · simp [hk]
    · simp [hk]
  unfold mergeInto
  cases hx : acc.any (fun e => decide (e.file_path = x.file_path)) with
  | true =>
    rw [if_pos rfl]
    refine ⟨?_, ?_, ?_⟩
    · exact hpw.map (mergeUpdate x) (fun a b hab => by
        rw [mergeUpdate_file_path, mergeUpdate_file_path]
        exact hab)
    · intro e2 he2
      rw [List.mem_map] at he2
      obtain ⟨e, heacc, rfl⟩ := he2
      obtain ⟨hid, hty, y0, hy0, hy0k⟩ := hfields e heacc
      rw [mergeUpdate_file_path]
      by_cases hpe : e.file_path = x.file_path
      · have hmapid : (seen.filter (fun y => decide (y.file_path = e.file_path))).map
            FileRef.node_id ≠ [] := by
          intro hnil
          rw [List.map_eq_nil_iff] at hnil
          have hmem : y0 ∈ seen.filter (fun y => decide (y.file_path = e.file_path)) :=
            List.mem_filter.mpr ⟨hy0, decide_eq_true hy0k⟩
          rw [hnil] at hmem
          cases hmem
        have hmapty : (seen.filter (fun y => decide (y.file_path = e.file_path))).map
            FileRef.node_type ≠ [] := by
          intro hnil
          rw [List.map_eq_nil_iff] at hnil
          have hmem : y0 ∈ seen.filter (fun y => decide (y.file_path = e.file_path)) :=
            List.mem_filter.mpr ⟨hy0, decide_eq_true hy0k⟩
          rw [hnil] at hmem
          cases hmem
        refine ⟨?_, ?_, x, List.mem_append_right _ (by simp), hpe.symm⟩
        · obtain ⟨s0, srest, hs⟩ := List.exists_cons_of_ne_nil hmapid
          calc (mergeUpdate x e).node_id
              = e.node_id ++ "," ++ x.node_id := mergeUpdate_node_id_of_eq hpe
            _ = joinComma (s0 :: srest) ++ "," ++ x.node_id := by rw [hid, hs]
            _ = joinComma ((s0 :: srest) ++ [x.node_id]) :=
                (joinComma_append_last s0 srest x.node_id).symm
            _ = joinComma (((seen ++ [x]).filter
                  (fun y => decide (y.file_path = e.file_path))).map FileRef.node_id) := by
                rw [hfilt e.file_path, if_pos hpe.symm, List.map_append, hs]
                rfl
        · obtain ⟨t0, trest, ht⟩ := List.exists_cons_of_ne_nil hmapty
          calc (mergeUpdate x e).node_type
              = (if x.node_type ≠ e.node_type then e.node_type ++ "," ++ x.node_type
                 else e.node_type) := mergeUpdate_node_type_of_eq hpe
            _ = (if x.node_type ≠ mergeTypes (t0 :: trest) then
                   mergeTypes (t0 :: trest) ++ "," ++ x.node_type
                 else mergeTypes (t0 :: trest)) := by rw [hty, ht]
            _ = mergeTypes ((t0 :: trest) ++ [x.node_type]) :=
                (mergeTypes_append_last t0 trest x.node_type).symm
            _ = mergeTypes (((seen ++ [x]).filter
                  (fun y => decide (y.file_path = e.file_path))).map FileRef.node_type) := by
                rw [hfilt e.file_path, if_pos hpe.symm, List.map_append, ht]
                rfl
      · rw [mergeUpdate_eq_of_ne hpe]
        have hxkey : ¬ (x.file_path = e.file_path) := fun h2 => hpe h2.symm
        rw [hfilt e.file_path, if_neg hxkey, List.append_nil]
        exact ⟨hid, hty, y0, List.mem_append_left _ hy0, hy0k⟩
    · intro y hy
      rcases List.mem_append.mp hy with hy2 | hy2
      · obtain ⟨e, he, hk⟩ := hpres y hy2
        refine ⟨mergeUpdate x e, List.mem_map_of_mem _ he, ?_⟩
        rw [mergeUpdate_file_path]
        exact hk
      · have hyx : y = x := by simpa using hy2
        subst hyx
        obtain ⟨e, he, hdec⟩ := List.any_eq_true.mp hx
        have he2 : e.file_path = y.file_path := of_decide_eq_true hdec
        refine ⟨mergeUpdate y e, List.mem_map_of_mem _ he, ?_⟩
        rw [mergeUpdate_file_path]
        exact he2
  | false =>
    rw [if_neg Bool.false_ne_true]
    have hnone : ∀ e ∈ acc, ¬ (e.file_path = x.file_path) := by
      intro e he hp2
      rw [List.any_eq_false] at hx
      exact hx e he (decide_eq_true hp2)
    refine ⟨?_, ?_, ?_⟩
    · rw [List.pairwise_append]
      refine ⟨hpw, List.pairwise_singleton _ _, ?_⟩
      intro a ha b hb
      have hb2 : b = { node_id := x.node_id, node_type := x.node_type, file_path := x.file_path } := by
        simpa using hb
      subst hb2
      exact hnone a ha
    · intro e2 he2
      rcases List.mem_append.mp he2 with he | he
      · obtain ⟨hid, hty, y0, hy0, hy0k⟩ := hfields e2 he
        have hxkey : ¬ (x.file_path = e2.file_path) := fun h2 => hnone e2 he h2.symm
        rw [hfilt e2.file_path, if_neg hxkey, List.append_nil]
        exact ⟨hid, hty, y0, List.mem_append_left _ hy0, hy0k⟩
      · have he3 : e2 = { node_id := x.node_id, node_type := x.node_type, file_path := x.file_path } := by
          simpa using he
        subst he3
        have hseen_nil : seen.filter (fun y => decide (y.file_path = x.file_path)) = [] := by
          rw [List.filter_eq_nil_iff]
          intro y hy hdec
          have hk : y.file_path = x.file_path := of_decide_eq_true hdec
          obtain ⟨e0, he0, hke⟩ := hpres y hy
          exact hnone e0 he0 (hke.trans hk)
        refine ⟨?_, ?_, x, List.mem_append_right _ (by simp), rfl⟩
        · show x.node_id = joinComma (((seen ++ [x]).filter
            (fun y => decide (y.file_path = x.file_path))).map FileRef.node_id)
          rw [hfilt x.file_path, if_pos rfl, hseen_nil]
          rfl
        · show x.node_type = mergeTypes (((seen ++ [x]).filter
            (fun y => decide (y.file_path = x.file_path))).map FileRef.node_type)
          rw [hfilt x.file_path, if_pos rfl, hseen_nil]
          rfl
    · intro y hy
      rcases List.mem_append.mp hy with hy2 | hy2
      · obtain ⟨e, he, hk⟩ := hpres y hy2
        exact ⟨e, List.mem_append_left _ he, hk⟩
      · have hyx : y = x := by simpa using hy2
        subst hyx
        exact ⟨{ node_id := y.node_id, node_type := y.node_type, file_path := y.file_path },
          List.mem_append_right _ (by simp), rfl⟩

theorem mergeInv_fold :
    ∀ (refs : List FileRef) (acc : List MergedEntry) (seen : List FileRef),
    mergeInv acc seen → mergeInv (refs.foldl mergeInto acc) (seen ++ refs) := by
  intro refs
  induction refs with
  | nil =>
    intro acc seen h
    simpa using h
  | cons r t ih =>
    intro acc seen h
    rw [List.foldl_cons, show seen ++ r :: t = (seen ++ [r]) ++ t by simp]
    exact ih (mergeInto acc r) (seen ++ [r]) (mergeInv_step r h)

theorem mergedFiles_inv (refs : List FileRef) : mergeInv (mergedFiles refs) refs := by
  have hbase : mergeInv [] [] := by
    refine ⟨List.Pairwise.nil, ?_, ?_⟩
    · intro e he
      cases he
    · intro y hy
      cases hy
  have h := mergeInv_fold refs [] [] hbase
  simpa [mergedFiles] using h

theorem insertByPath_perm (e : MergedEntry) :
    ∀ l : List MergedEntry, (insertByPath e l).Perm (e :: l) := by
  intro l
  induction l with
  | nil => exact List.Perm.refl _
  | cons a t ih =>
    unfold insertByPath
    by_cases hle : pathLe e a = true
    · rw [if_pos hle]
    · rw [if_neg hle]
      exact List.Perm.trans (ih.cons a) (List.Perm.swap e a t)

theorem sortByPath_perm : ∀ l : List MergedEntry, (sortByPath l).Perm l := by
  intro l
  induction l with
  | nil => exact List.Perm.refl _
  | cons a t ih =>
    unfold sortByPath
    exact List.Perm.trans (insertByPath_perm a _) (ih.cons a)

theorem numberFrom_mem :
    ∀ (l : List MergedEntry) (n k : Nat) (e : MergedEntry),
    (k, e) ∈ numberFrom n l → e ∈ l := by
  intro l
  induction l with
  | nil =>
    intro n k e h
    cases h
  | cons a t ih =>
    intro n k e h
    rcases List.mem_cons.mp h with he | ht
    · rw [show e = a from congrArg Prod.snd he]
      exact List.mem_cons_self a t
    · exact List.mem_cons_of_mem a (ih (n + 1) k e ht)

theorem numberFrom_mem_of_mem {e : MergedEntry} :
    ∀ (l : List MergedEntry) (n : Nat), e ∈ l → ∃ k, (k, e) ∈ numberFrom n l := by
  intro l
  induction l with
  | nil =>
    intro n h
    cases h
  | cons a t ih =>
    intro n h
    rcases List.mem_cons.mp h with he | ht
    · refine ⟨n, ?_⟩
      rw [he]
      exact List.mem_cons_self _ _
    · obtain ⟨k, hk⟩ := ih (n + 1) ht
      exact ⟨k, List.mem_cons_of_mem _ hk⟩

theorem numberFrom_pairwise {R : MergedEntry → MergedEntry → Prop} :
    ∀ (l : List MergedEntry) (n : Nat), l.Pairwise R →
    (numberFrom n l).Pairwise (fun p q => R p.2 q.2) := by
  intro l
  induction l with
  | nil =>
    intro n h
    exact List.Pairwise.nil
  | cons a t ih =>
    intro n h
    rw [List.pairwise_cons] at h
    refine List.Pairwise.cons ?_ (ih (n + 1) h.2)
    intro q hq
    obtain ⟨k, e2⟩ := q
    exact h.1 e2 (numberFrom_mem t (n + 1) k e2 hq)

/-- C1 (corrected). Ledger creation yields exactly one row per distinct
canonical filename; a row's node-id field is the comma-join of all
contributing node ids in input order; its node-type field is the fold
that appends a contributing type only when it differs from the whole
accumulated type string (consecutive duplicates of the accumulated
string are dropped, but a type recurring after a different type is
appended again); status starts empty. -/
theorem c1_merge_row_fields (refs : List FileRef) :
    (ledgerRows refs).Pairwise (fun a b => a.filename ≠ b.filename) ∧
    (∀ x, x ∈ refs → ∃ row, row ∈ ledgerRows refs ∧ row.filename = x.file_path) ∧
    (∀ row, row ∈ ledgerRows refs →
      (∃ x, x ∈ refs ∧ x.file_path = row.filename) ∧
      row.nodeId =
        joinComma ((refs.filter (fun y => decide (y.file_path = row.filename))).map
          FileRef.node_id) ∧
      row.nodeType =
        mergeTypes ((refs.filter (fun y => decide (y.file_path = row.filename))).map
          FileRef.node_type) ∧
      row.status = "") := by
  obtain ⟨hpw, hfields, hpres⟩ := mergedFiles_inv refs
  have hperm := sortByPath_perm (mergedFiles refs)
  have hpw2 : (sortByPath (mergedFiles refs)).Pairwise (fun a b => a.file_path ≠ b.file_path) :=
    (hperm.pairwise_iff (fun hab => Ne.symm hab)).mpr hpw
  refine ⟨?_, ?_, ?_⟩
  · show ((numberFrom 1 (sortByPath (mergedFiles refs))).map rowOfEntry).Pairwise
      (fun a b => a.filename ≠ b.filename)
    exact (numberFrom_pairwise _ 1 hpw2).map rowOfEntry (fun p q hpq => hpq)
  · intro x hx
    obtain ⟨e, he, hk⟩ := hpres x hx
    have he2 : e ∈ sortByPath (mergedFiles refs) := hperm.mem_iff.mpr he
    obtain ⟨k, hkmem⟩ := numberFrom_mem_of_mem _ 1 he2
    exact ⟨rowOfEntry (k, e), List.mem_map_of_mem rowOfEntry hkmem, hk⟩
  · intro row hrow
    rw [show ledgerRows refs = (numberFrom 1 (sortByPath (mergedFiles refs))).map rowOfEntry
      from rfl, List.mem_map] at hrow
    obtain ⟨p, hp, rfl⟩ := hrow
    obtain ⟨k, e⟩ := p
    have he : e ∈ mergedFiles refs :=
      hperm.mem_iff.mp (numberFrom_mem (sortByPath (mergedFiles refs)) 1 k e hp)
    obtain ⟨hid, hty, y0, hy0, hy0k⟩ := hfields e he
    exact ⟨⟨y0, hy0, hy0k⟩, hid, hty, rfl⟩

/-- C1, refuting the dedup part of the claim as stated: three references
to one filename with types A, B, A produce the node-type field A,B,A,
not the deduplicated A,B. -/
theorem c1_dedup_counterexample :
    ((ledgerRows [⟨"1", "A", "f.pt"⟩, ⟨"2", "B", "f.pt"⟩, ⟨"3", "A", "f.pt"⟩]).map
        Row.nodeType = ["A,B,A"]) ∧
    specDedupTypeField ((([⟨"1", "A", "f.pt"⟩, ⟨"2", "B", "f.pt"⟩,
        ⟨"3", "A", "f.pt"⟩] : List FileRef).filter
          (fun y => decide (y.file_path = "f.pt"))).map FileRef.node_type) = "A,B" ∧
    ("A,B,A" : String) ≠ "A,B" :=
  ⟨by decide, by decide, by decide⟩

theorem c1_merge_row_fields_witness :
    ((⟨"1", "12,47", "T", "f.pt", "", "", "",
        "https://www.bing.com/search?q=site:huggingface.co+%22f.pt%22"⟩ : Row) ∈
      ledgerRows [⟨"12", "T", "f.pt"⟩, ⟨"47", "T", "f.pt"⟩]) ∧
    Row.nodeId (⟨"1", "12,47", "T", "f.pt", "", "", "",
        "https://www.bing.com/search?q=site:huggingface.co+%22f.pt%22"⟩ : Row) =
      joinComma ((([⟨"12", "T", "f.pt"⟩, ⟨"47", "T", "f.pt"⟩] : List FileRef).filter
        (fun y => decide (y.file_path = Row.filename (⟨"1", "12,47", "T", "f.pt", "", "", "",
          "https://www.bing.com/search?q=site:huggingface.co+%22f.pt%22"⟩ : Row)))).map
        FileRef.node_id) :=
  ⟨by decide,
    ((c1_merge_row_fields [⟨"12", "T", "f.pt"⟩, ⟨"47", "T", "f.pt"⟩]).2.2
      (⟨"1", "12,47", "T", "f.pt", "", "", "",
        "https://www.bing.com/search?q=site:huggingface.co+%22f.pt%22"⟩ : Row)
      (by decide)).2.1⟩

/-! ### Lemmas about the alias-map store -/

theorem existsOtherOriginal_false_spec :
    ∀ (maps : List Mapping) (j0 i : Nat) (o : String),
    existsOtherOriginal j0 i o maps = false →
    ∀ d m, maps.get? d = some m → j0 + d ≠ i → ¬ (m.original_name = o) := by
  intro maps
  induction maps with
  | nil =>
    intro j0 i o h d m hget
    simp [List.get?] at hget
  | cons a t ih =>
    intro j0 i o h d m hget hne
    unfold existsOtherOriginal at h
    rw [Bool.or_eq_false_iff] at h
    obtain ⟨h1, h2⟩ := h
    cases d with
    | zero =>
      rw [List.get?_cons_zero] at hget
      have ham : a = m := by injection hget
      have hj : decide (j0 ≠ i) = true := decide_eq_true (by omega)
      rw [hj, Bool.true_and, ham] at h1
      exact of_decide_eq_false h1
    | succ d2 =>
      rw [List.get?_cons_succ] at hget
      exact ih (j0 + 1) i o h2 d2 m hget (by omega)

theorem mem_modifyAt {α : Type} (f : α → α) :
    ∀ (l : List α) (i : Nat) (b : α), b ∈ modifyAt f i l →
    b ∈ l ∨ ∃ a, l.get? i = some a ∧ b = f a := by
  intro l
  induction l with
  | nil =>
    intro i b h
    cases i with
    | zero => cases h
    | succ n => cases h
  | cons a t ih =>
    intro i b h
    cases i with
    | zero =>
      rcases List.mem_cons.mp h with hb | hb
      · exact Or.inr ⟨a, rfl, hb⟩
      · exact Or.inl (List.mem_cons_of_mem a hb)
    | succ n =>
      rcases List.mem_cons.mp h with hb | hb
      · rw [hb]
        exact Or.inl (List.mem_cons_self a t)
      · rcases ih n b hb with h2 | ⟨a2, hget, hb2⟩
        · exact Or.inl (List.mem_cons_of_mem a h2)
        · refine Or.inr ⟨a2, ?_, hb2⟩
          rw [List.get?_cons_succ]
          exact hget

theorem modifyAt_pairwise_distinct (newOrig newCorr newNotes : String) :
    ∀ (l : List Mapping) (i : Nat),
    l.Pairwise (fun a b => a.original_name ≠ b.original_name) →
    (∀ d m, l.get? d = some m → d ≠ i → ¬ (m.original_name = newOrig)) →
    (modifyAt (fun m => { m with original_name := newOrig, corrected_name := newCorr, notes := newNotes }) i l).Pairwise
      (fun a b => a.original_name ≠ b.original_name) := by
  intro l
  induction l with
  | nil =>
    intro i hp hc
    cases i with
    | zero => exact List.Pairwise.nil
    | succ n => exact List.Pairwise.nil
  | cons a t ih =>
    intro i hp hc
    rw [List.pairwise_cons] at hp
    cases i with
    | zero =>
      refine List.Pairwise.cons ?_ hp.2
      intro b hb
      obtain ⟨d, hd⟩ := List.get?_of_mem hb
      have hbne : ¬ (b.original_name = newOrig) := by
        refine hc (d + 1) b ?_ (by omega)
        rw [List.get?_cons_succ]
        exact hd
      show newOrig ≠ b.original_name
      exact fun h2 => hbne h2.symm
    | succ n =>
      refine List.Pairwise.cons ?_ (ih n hp.2 ?_)
      · intro b hb
        rcases mem_modifyAt _ t n b hb with h2 | ⟨a2, hget, hb2⟩
        · exact hp.1 b h2
        · have hane : ¬ (a.original_name = newOrig) := hc 0 a rfl (by omega)
          rw [hb2]
          show a.original_name ≠ newOrig
          exact hane
      · intro d m hget hdne
        refine hc (d + 1) m ?_ (by omega)
        rw [List.get?_cons_succ]
        exact hget

theorem addMapping_preserves_distinct (maps : List Mapping)
    (newId origName corrName notes : String)
    (h : maps.Pairwise (fun a b => a.original_name ≠ b.original_name)) :
    (addMapping maps newId origName corrName notes).2.Pairwise
      (fun a b => a.original_name ≠ b.original_name) := by
  unfold addMapping
  by_cases hg : (origName = "" || corrName = "") = true
  · rw [if_pos hg]
    exact h
  · rw [if_neg hg]
    cases ha : maps.any (fun m => decide (m.original_name = origName)) with
    | true =>
      rw [if_pos rfl]
      exact h
    | false =>
      rw [if_neg Bool.false_ne_true]
      rw [List.pairwise_append]
      refine ⟨h, List.pairwise_singleton _ _, ?_⟩
      intro a hamem b hb
      have hb2 : b = (⟨newId, origName, corrName, notes⟩ : Mapping) := by simpa using hb
      subst hb2
      show a.original_name ≠ origName
      rw [List.any_eq_false] at ha
      intro he
      exact ha a hamem (decide_eq_true he)

theorem updateMapping_preserves_distinct (maps : List Mapping)
    (mid newOrig newCorr newNotes : String)
    (h : maps.Pairwise (fun a b => a.original_name ≠ b.original_name)) :
    (updateMapping maps mid newOrig newCorr newNotes).2.Pairwise
      (fun a b => a.original_name ≠ b.original_name) := by
  unfold updateMapping
  by_cases hg : (newOrig = "" || newCorr = "") = true
  · rw [if_pos hg]
    exact h
  · rw [if_neg hg]
    cases hf : findIdxById 0 mid maps with
    | none =>
      simp only [hf]
      exact h
    | some i =>
      simp only [hf]
      cases hc : existsOtherOriginal 0 i newOrig maps with
      | true =>
        rw [if_pos rfl]
        exact h
      | false =>
        rw [if_neg Bool.false_ne_true]
        refine modifyAt_pairwise_distinct newOrig newCorr newNotes maps i h ?_
        intro d m hget hdne
        exact existsOtherOriginal_false_spec maps 0 i newOrig hc d m hget (by omega)

theorem deleteMapping_preserves_distinct (maps : List Mapping) (mid : String)
    (h : maps.Pairwise (fun a b => a.original_name ≠ b.original_name)) :
    (deleteMapping maps mid).2.Pairwise (fun a b => a.original_name ≠ b.original_name) := by
  unfold deleteMapping
  by_cases hlen : (maps.filter (fun m => decide (m.id ≠ mid))).length < maps.length
  · rw [if_pos hlen]
    exact List.Pairwise.sublist (List.filter_sublist maps) h
  · rw [if_neg hlen]
    exact h

/-- C10 (confirmed). add_mapping refuses a duplicate original name and
leaves the store unchanged; update_mapping refuses a new original name
colliding with any other entry and leaves the store unchanged; hence
every store reachable from the empty one keeps original names pairwise
distinct. -/
theorem c10_alias_unique_originals :
    (∀ (s : List Mapping) (newId origName corrName notes : String),
      s.any (fun m => decide (m.original_name = origName)) = true →
      addMapping s newId origName corrName notes = (false, s)) ∧
    (∀ (s : List Mapping) (mid newOrig newCorr newNotes : String) (i : Nat),
      findIdxById 0 mid s = some i →
      existsOtherOriginal 0 i newOrig s = true →
      updateMapping s mid newOrig newCorr newNotes = (false, s)) ∧
    (∀ s, ReachableAliasState s →
      s.Pairwise (fun a b => a.original_name ≠ b.original_name)) := by
  refine ⟨?_, ?_, ?_⟩
  · intro s newId origName corrName notes hdup
    unfold addMapping
    by_cases hg : (origName = "" || corrName = "") = true
    · rw [if_pos hg]
    · rw [if_neg hg, if_pos hdup]
  · intro s mid newOrig newCorr newNotes i hfind hconf
    unfold updateMapping
    by_cases hg : (newOrig = "" || newCorr = "") = true
    · rw [if_pos hg]
    · rw [if_neg hg]
      simp only [hfind]
      rw [if_pos hconf]
  · intro s h
    induction h with
    | empty => exact List.Pairwise.nil
    | add s2 newId origName corrName notes h2 ih =>
      exact addMapping_preserves_distinct s2 newId origName corrName notes ih
    | update s2 mid newOrig newCorr newNotes h2 ih =>
      exact updateMapping_preserves_distinct s2 mid newOrig newCorr newNotes ih
    | del s2 mid h2 ih =>
      exact deleteMapping_preserves_distinct s2 mid ih

theorem c10_alias_unique_originals_witness :
    (([(⟨"i1", "o", "c", "n"⟩ : Mapping)]).any
        (fun m => decide (m.original_name = "o")) = true) ∧
    addMapping [(⟨"i1", "o", "c", "n"⟩ : Mapping)] "i2" "o" "c2" "n2" =
      (false, [(⟨"i1", "o", "c", "n"⟩ : Mapping)]) :=
  ⟨by decide,
    c10_alias_unique_originals.1 [(⟨"i1", "o", "c", "n"⟩ : Mapping)] "i2" "o" "c2" "n2"
      (by decide)⟩
